import Mathlib

/-!
Verification of the firmware-update orchestrator (`src/bf_dpu_update.py`,
class `BF_DPU_Update`) against its natural-language specification.

Python strings are embedded as `List Char`; Python `None` for strings as
`Option (List Char)` (or the small `PyValue` type where the code also
guards against non-strings); integers as `Int`/`Nat`; fallible code as
`Except Err_Num`.  All definitions are translated from the source; each
definition's doc comment names the Python function it embeds.
-/

/-- Modelled from the spec: the closed error taxonomy (spec section 4.6).
The `error_num` module is imported by `bf_dpu_update.py` but is not among
the sources; only the kinds referenced by the translated code are listed.
Numeric exit codes are not needed by any claim. -/
inductive Err_Num where
  | INVALID_BMC_ADDRESS
  | FILE_NOT_ACCESSIBLE
  | INVALID_STATUS_CODE
  | ACCOUNT_LOCKED
  | INVALID_USERNAME_OR_PASSWORD
  | BAD_RESPONSE_FORMAT
  | UPDATE_SERVICE_NOT_READY
  | NOT_SUPPORT_SIMPLE_UPDATE_PROTOCOL
  | PUBLIC_KEY_NOT_EXCHANGED
  | HTTP_FILE_SERVER_NOT_ACCESSIBLE
  | BMC_BACKGROUND_BUSY
  | ANOTHER_UPDATE_IS_IN_PROGRESS
  | TASK_TIMEOUT
  | TASK_FAILED
  | FW_FILE_NOT_MATCH_MODULE
  | EMPTY_FW_VER
  | NEW_VERION_CHECK_FAILED
  | FAILED_TO_ENABLE_BMC_RSHIM
  | UNSUPPORTED_MODULE
  | FAILED_TO_GET_LOCAL_KEY
  | INVALID_INPUT_PARAMETER
  | PUSH_URI_NOT_FOUND
  | OTHER_EXCEPTION
  deriving DecidableEq, Repr

/-- `startsWithL p s = true` iff the list `p` is a leading segment of `s`
(Python `s.startswith(p)`, also the per-position test of `str.replace`). -/
def startsWithL : List Char → List Char → Bool
  | [], _ => true
  | _ :: _, [] => false
  | a :: p, b :: s => a == b && startsWithL p s

/-- `hasSub p s = true` iff `p` occurs contiguously in `s`
(Python substring test `p in s`). -/
def hasSub (p : List Char) : List Char → Bool
  | [] => p == []
  | c :: rest => startsWithL p (c :: rest) || hasSub p rest

/-- Python `s.replace('', r)`: `r` is inserted before every character and
once at the end. -/
def interleave (r : List Char) : List Char → List Char
  | [] => r
  | c :: rest => r ++ c :: interleave r rest

/-- Fuelled left-to-right scan of Python `s.replace(p, r)` for non-empty
`p`.  The fuel is `s.length` at every call from `pyReplace`, which is
always enough: each step consumes at least one character of `s`. -/
def replaceFuel (p r : List Char) : Nat → List Char → List Char
  | 0, s => s
  | _ + 1, [] => []
  | fuel + 1, c :: rest =>
    if startsWithL p (c :: rest) then
      r ++ replaceFuel p r fuel ((c :: rest).drop p.length)
    else
      c :: replaceFuel p r fuel rest

/-- Python `s.replace(p, r)` (all non-overlapping occurrences, scanning
left to right). -/
def pyReplace (p r s : List Char) : List Char :=
  if p = [] then interleave r s else replaceFuel p r s.length s

/-- Python `s.split(sep, 1)` for a one-character separator, keeping only
the case distinction the source needs: `none` when the separator does not
occur (so tuple unpacking of the single part raises `ValueError`), else
the parts before and after the first occurrence. -/
def splitOnceChar (c : Char) : List Char → Option (List Char × List Char)
  | [] => none
  | a :: rest =>
    if a == c then some ([], rest)
    else
      match splitOnceChar c rest with
      | none => none
      | some (l, r) => some ((a :: l), r)

/-- Python `s.split(sep)` for a one-character separator: every occurrence
splits, empty parts are kept, and the empty string yields `[[]]`. -/
def splitAllChar (c : Char) : List Char → List (List Char)
  | [] => [[]]
  | a :: rest =>
    if a == c then [] :: splitAllChar c rest
    else
      match splitAllChar c rest with
      | [] => [[a]]
      | g :: gs => (a :: g) :: gs

/-- The whitespace characters Python `int()` strips from both ends. -/
def pyWhitespace : List Char := [' ', '\t', '\n', '\x0d', '\x0b', '\x0c']

/-- Strip leading and trailing `int()`-whitespace. -/
def stripWs (s : List Char) : List Char :=
  ((s.dropWhile (fun c => pyWhitespace.contains c)).reverse.dropWhile
    (fun c => pyWhitespace.contains c)).reverse

/-- Digit run of Python `int()` after the first digit: single underscores
are allowed between digits, nothing else. -/
def pyDigitsGo (acc : Nat) : List Char → Option Nat
  | [] => some acc
  | '_' :: d :: rest =>
    if d.isDigit then pyDigitsGo (acc * 10 + (d.toNat - 48)) rest else none
  | '_' :: [] => none
  | d :: rest =>
    if d.isDigit then pyDigitsGo (acc * 10 + (d.toNat - 48)) rest else none

/-- Nonempty digit run (with medial underscores) of Python `int()`. -/
def pyDigits : List Char → Option Nat
  | [] => none
  | d :: rest => if d.isDigit then pyDigitsGo (d.toNat - 48) rest else none

/-- Python `int(s)` on ASCII input: strip whitespace, optional sign, then
a digit run; `none` models `ValueError`. -/
def pyInt (s : List Char) : Option Int :=
  match stripWs s with
  | '+' :: rest => (pyDigits rest).map (fun n => (n : Int))
  | '-' :: rest => (pyDigits rest).map (fun n => -(n : Int))
  | t => (pyDigits t).map (fun n => (n : Int))

/-- A Python value in a position the source guards with
`not version_str or not isinstance(version_str, str)`: `pnone` is `None`,
`pstr` a string, `pother` any non-string value. -/
inductive PyValue where
  | pnone
  | pstr (s : List Char)
  | pother
  deriving DecidableEq, Repr

/-- `_parse_bmc_version` (lines 766-788): drop every occurrence of the
vendor marker `BF-`, turn `-` into `.`, split on `.`, and convert the
first three parts with `int()`; `None`, non-strings, the empty string and
any conversion failure give the sentinel `(0, 0, 0)`. -/
def parseBmcVersion : PyValue → Int × Int × Int
  | PyValue.pnone => (0, 0, 0)
  | PyValue.pother => (0, 0, 0)
  | PyValue.pstr s =>
    if s = [] then (0, 0, 0)
    else
      let version := pyReplace "BF-".toList [] s
      let parts := splitAllChar '.' (pyReplace ['-'] ['.'] version)
      if 3 ≤ parts.length then
        match pyInt (parts.getD 0 []), pyInt (parts.getD 1 []), pyInt (parts.getD 2 []) with
        | some a, some b, some c => (a, b, c)
        | _, _, _ => (0, 0, 0)
      else (0, 0, 0)

/-- Python `<` on integer triples (lexicographic). -/
def tupLt (a b : Int × Int × Int) : Bool :=
  a.1 < b.1 || (a.1 == b.1 && (a.2.1 < b.2.1 || (a.2.1 == b.2.1 && a.2.2 < b.2.2)))

/-- `_compare_bmc_versions` (lines 791-807): `-1`, `0` or `1` by tuple
comparison of the parsed versions. -/
def compareBmcVersions (v1 v2 : PyValue) : Int :=
  let t1 := parseBmcVersion v1
  let t2 := parseBmcVersion v2
  if tupLt t1 t2 then -1 else if tupLt t2 t1 then 1 else 0

/-- The fixed threshold version of `_check_and_clear_sel_if_needed`. -/
def thresholdVersion : PyValue := PyValue.pstr "BF-24.10-33".toList

/-- `_check_and_clear_sel_if_needed` (lines 831-850), reduced to its gate:
`true` iff `clear_sel_log` is invoked. -/
def shouldClearSel (old_version new_version : PyValue) : Bool :=
  let old_vs_threshold := compareBmcVersions old_version thresholdVersion
  let new_vs_threshold := compareBmcVersions new_version thresholdVersion
  (decide (old_vs_threshold < 0) && decide (0 ≤ new_vs_threshold)) ||
    (decide (0 ≤ old_vs_threshold) && decide (new_vs_threshold < 0))

/-- One sampled state of the asynchronous Redfish task, the fields
`_get_task_status` extracts (lines 664-687). -/
structure TaskState where
  state : List Char
  status : List Char
  percent : Int
  message : List Char
  deriving DecidableEq, Repr

/-- The polling loop of `_wait_task` (lines 975-980): sample up to `fuel`
times (`fuel = max_second // check_step`), stopping at the first sample
whose state is not `Running`; returns the last sampled state and the
number of samples taken.  `fuel = 0` never occurs at a call site (in
Python it would leave `task_state` unbound and raise `NameError`). -/
def pollRun (f : Nat → TaskState) : Nat → Nat → TaskState × Nat
  | i, 0 => (f i, 0)
  | i, 1 => (f i, 1)
  | i, m + 2 =>
    if (f i).state = "Running".toList then
      let p := pollRun f (i + 1) (m + 1)
      (p.1, p.2 + 1)
    else ((f i), 1)

/-- The message marker for an identical image (line 992). -/
def identicalMarker : List Char := "Component image is identical".toList

/-- The message marker for a pending background copy (line 994). -/
def bgCopyMarker : List Char := "Wait for background copy operation".toList

/-- Outcome classification of `_wait_task` (lines 983-997) on the last
sampled state.  `err_handler` is modelled by its effect: `some e` when the
Python handler raises `e` on this state, `none` when it returns. -/
def classifyTask (err_handler : TaskState → Option Err_Num) (ts : TaskState) :
    Except Err_Num Bool :=
  if ts.state = "Completed".toList ∧ ts.status = "OK".toList ∧ ts.percent = 100 then
    Except.ok true
  else if ts.state = "Running".toList then
    Except.error Err_Num.TASK_TIMEOUT
  else
    match err_handler ts with
    | some e => Except.error e
    | none =>
      if hasSub identicalMarker ts.message then Except.ok false
      else if hasSub bgCopyMarker ts.message then
        Except.error Err_Num.BMC_BACKGROUND_BUSY
      else Except.error Err_Num.TASK_FAILED

/-- `_wait_task` (lines 973-997) over the stream `f` of task states the
successive polls observe: `Except.ok true` is successful completion,
`Except.ok false` the skip outcome for an identical image. -/
def waitTask (f : Nat → TaskState) (max_second check_step : Nat)
    (err_handler : TaskState → Option Err_Num) : Except Err_Num Bool :=
  classifyTask err_handler (pollRun f 0 (max_second / check_step)).1

/-- Number of polls `_wait_task` makes on stream `f`. -/
def waitTaskPolls (f : Nat → TaskState) (max_second check_step : Nat) : Nat :=
  (pollRun f 0 (max_second / check_step)).2

/-- The wait-task arguments of `update_bmc_or_cec` (line 1089):
`(max_second, check_step)`, chosen by which module is updated. -/
def updateBmcOrCecWaitParams (is_bmc : Bool) : Nat × Nat :=
  (if is_bmc then 20 * 60 else 4 * 60, if is_bmc then 10 else 2)

/-- The version-comparison skip of `update_bios` (lines 1295-1298):
`true` iff the workflow returns early before pushing, which requires the
operator flag `skip_same_version` and the current ATF version occurring
in the version embedded in the firmware file. -/
def updateBiosSkip (skip_same_version : Bool) (cur_atf_ver fw_file_atf_ver : List Char) : Bool :=
  skip_same_version && hasSub cur_atf_ver fw_file_atf_ver

/-- Protocol restriction of `simple_update` (lines 482-488): the
BMC-advertised list intersected with the supported set, HTTP first. -/
def supportedProtocols (advertised : List (List Char)) : List (List Char) :=
  (if advertised.contains "HTTP".toList then ["HTTP".toList] else []) ++
    (if advertised.contains "SCP".toList then ["SCP".toList] else [])

/-- Protocol selection of `simple_update` (lines 490-504): an
operator-forced protocol must be in the restricted list; otherwise HTTP
is preferred, then SCP. -/
def selectUpdateProtocol (advertised : List (List Char))
    (bfb_update_protocol : Option (List Char)) : Except Err_Num (List Char) :=
  let protocols := supportedProtocols advertised
  match bfb_update_protocol with
  | some p =>
    if protocols.contains p then Except.ok p
    else Except.error Err_Num.NOT_SUPPORT_SIMPLE_UPDATE_PROTOCOL
  | none =>
    if protocols.contains "HTTP".toList then Except.ok "HTTP".toList
    else if protocols.contains "SCP".toList then Except.ok "SCP".toList
    else Except.error Err_Num.NOT_SUPPORT_SIMPLE_UPDATE_PROTOCOL

/-- `simple_update` (lines 481-506) as outcome plus the list of push
actions sent to the BMC: the `SimpleUpdate` POST of `simple_update_impl`
is issued only after protocol selection succeeds. -/
def simpleUpdateTrace (advertised : List (List Char))
    (bfb_update_protocol : Option (List Char)) :
    Except Err_Num (List Char) × List (List Char) :=
  match selectUpdateProtocol advertised bfb_update_protocol with
  | Except.error e => (Except.error e, [])
  | Except.ok p => (Except.ok p, ["UpdateService.SimpleUpdate".toList])

/-- Days of a month under the Gregorian rules `datetime` enforces. -/
def daysInMonth (month year : Nat) : Nat :=
  if month = 2 then
    if year % 4 = 0 && (year % 100 ≠ 0 || year % 400 = 0) then 29 else 28
  else if month = 4 || month = 6 || month = 9 || month = 11 then 30
  else 31

/-- Greedy 1-2 digit field of `strptime`: value and remaining input. -/
def takeDigits2 : List Char → Option (Nat × List Char)
  | a :: b :: rest =>
    if a.isDigit then
      if b.isDigit then some ((a.toNat - 48) * 10 + (b.toNat - 48), rest)
      else some (a.toNat - 48, b :: rest)
    else none
  | a :: [] => if a.isDigit then some (a.toNat - 48, []) else none
  | [] => none

/-- Four-digit year field of `strptime`'s `%Y`. -/
def takeDigits4 : List Char → Option (Nat × List Char)
  | a :: b :: c :: d :: rest =>
    if a.isDigit && b.isDigit && c.isDigit && d.isDigit then
      some ((((a.toNat - 48) * 10 + (b.toNat - 48)) * 10 + (c.toNat - 48)) * 10
        + (d.toNat - 48), rest)
    else none
  | _ => none

/-- A literal character of the `strptime` format. -/
def takeLit (c : Char) : List Char → Option (List Char)
  | a :: rest => if a == c then some rest else none
  | [] => none

/-- One-or-more whitespace, the match of a blank in a `strptime` format. -/
def takeWs1 : List Char → Option (List Char)
  | a :: rest =>
    if pyWhitespace.contains a then some (rest.dropWhile (fun c => pyWhitespace.contains c))
    else none
  | [] => none

/-- `_validate_fru_date_format` (lines 255-260):
`datetime.strptime(date_str, "%d/%m/%Y %H:%M:%S")` succeeds. -/
def validateFruDateFormat (date_str : List Char) : Bool :=
  match takeDigits2 date_str with
  | none => false
  | some (day, s1) =>
    match takeLit '/' s1 with
    | none => false
    | some s2 =>
      match takeDigits2 s2 with
      | none => false
      | some (month, s3) =>
        match takeLit '/' s3 with
        | none => false
        | some s4 =>
          match takeDigits4 s4 with
          | none => false
          | some (year, s5) =>
            match takeWs1 s5 with
            | none => false
            | some s6 =>
              match takeDigits2 s6 with
              | none => false
              | some (hour, s7) =>
                match takeLit ':' s7 with
                | none => false
                | some s8 =>
                  match takeDigits2 s8 with
                  | none => false
                  | some (minute, s9) =>
                    match takeLit ':' s9 with
                    | none => false
                    | some s10 =>
                      match takeDigits2 s10 with
                      | none => false
                      | some (second, s11) =>
                        s11 = [] && 1 ≤ year && 1 ≤ day && 1 ≤ month &&
                          month ≤ 12 && day ≤ daysInMonth month year &&
                          hour ≤ 23 && minute ≤ 59 && second ≤ 59

/-- The loop body of `update_oem_fru` (lines 1581-1596) for one
`Section:Key=Value` item: `ValueError` from either unpacking and the two
explicit raises all surface as `INVALID_INPUT_PARAMETER`; on success the
flat `Section+Key` key and the value. -/
def parseFruItem (item : List Char) : Except Err_Num (List Char × List Char) :=
  match splitOnceChar '=' item with
  | none => Except.error Err_Num.INVALID_INPUT_PARAMETER
  | some (section_key, value) =>
    match splitAllChar ':' section_key with
    | [sec, key] =>
      if 63 < value.length then Except.error Err_Num.INVALID_INPUT_PARAMETER
      else if section_key = "Product:ManufactureDate".toList ∧ value ≠ [] ∧
          validateFruDateFormat value = false then
        Except.error Err_Num.INVALID_INPUT_PARAMETER
      else Except.ok (sec ++ key, value)
    | _ => Except.error Err_Num.INVALID_INPUT_PARAMETER

/-- The validation loop of `update_oem_fru` over all supplied items,
stopping at the first failing item as the Python `for` does. -/
def parseFruItems : List (List Char) → Except Err_Num (List (List Char × List Char))
  | [] => Except.ok []
  | it :: rest =>
    match parseFruItem it with
    | Except.error e => Except.error e
    | Except.ok kv =>
      match parseFruItems rest with
      | Except.error e => Except.error e
      | Except.ok kvs => Except.ok (kv :: kvs)

/-- `update_oem_fru` (lines 1572-1609) as outcome plus the write requests
sent: the HTTP PUT (line 1605) happens only after every item validated. -/
def updateOemFruTrace (items : List (List Char)) :
    Except Err_Num Unit × List (List Char) :=
  match parseFruItems items with
  | Except.error e => (Except.error e, [])
  | Except.ok _ => (Except.ok (), ["PUT /Systems/Bluefield/Oem/Nvidia".toList])

/-- The value a FRU item would carry, by the same `split('=', 1)` the
source applies (everything after the first `=`). -/
def fruItemValue (item : List Char) : Option (List Char) :=
  (splitOnceChar '=' item).map (fun p => p.2)

/-- `get_ver` (lines 337-346) over the list of outcomes of the successive
`_get_ver` attempts: the first successful attempt's `Version` field is
returned as-is (`none` models a JSON `null` passed through by
`get_ver_by_uri`, line 326), and exhaustion of all attempts degrades to
the empty string. -/
def getVer : List (Except Err_Num (Option (List Char))) → Option (List Char)
  | [] => some []
  | Except.ok v :: _ => v
  | Except.error _ :: rest => getVer rest

/-- The empty-version guard of `update_bios` (lines 1286-1289):
`EMPTY_FW_VER` iff the current ATF or UEFI version `is None`. -/
def updateBiosVersionGuard (cur_atf_ver cur_uefi_ver : Option (List Char)) :
    Except Err_Num Unit :=
  if cur_atf_ver = none ∨ cur_uefi_ver = none then
    Except.error Err_Num.EMPTY_FW_VER
  else Except.ok ()

/-- The post-update verification of `update_bios` (lines 1308-1311):
fails iff the newly read ATF version is not a substring of the version
embedded in the firmware file. -/
def biosVerifyNewVersion (new_atf_ver fw_file_atf_ver : List Char) :
    Except Err_Num Unit :=
  if hasSub new_atf_ver fw_file_atf_ver then Except.ok ()
  else Except.error Err_Num.NEW_VERION_CHECK_FAILED

/-- Placeholder for the BMC password in logs. -/
def phPassword : List Char := "<password>".toList

/-- Placeholder for the BMC username in logs. -/
def phUsername : List Char := "<username>".toList

/-- Placeholder for the SSH password in logs. -/
def phSshPassword : List Char := "<ssh_password>".toList

/-- Placeholder for the SSH username in logs. -/
def phSshUsername : List Char := "<ssh_username>".toList

/-- Every character occurring in one of the four placeholders. -/
def phChars : List Char := phPassword ++ phUsername ++ phSshPassword ++ phSshUsername

/-- The redaction of `log` (lines 279-284) applied to the composed text:
replace the password, then the username, then — when not `None` and not
empty — the SSH password and SSH username. -/
def logRedact (password username : List Char)
    (ssh_password ssh_username : Option (List Char)) (data : List Char) : List Char :=
  let d1 := pyReplace password phPassword data
  let d2 := pyReplace username phUsername d1
  let d3 := match ssh_password with
    | some s => if s = [] then d2 else pyReplace s phSshPassword d2
    | none => d2
  match ssh_username with
  | some s => if s = [] then d3 else pyReplace s phSshUsername d3
  | none => d3

/-- The message-only composition of `log` (line 264), redacted: the text
that reaches the debug output and the transcript file when no response is
attached. -/
def logText (password username : List Char)
    (ssh_password ssh_username : Option (List Char)) (msg : List Char) : List Char :=
  logRedact password username ssh_password ssh_username
    ("[======== ".toList ++ msg ++ " ========]: \n".toList)

/-- A concrete terminal task state: completed successfully, message
nevertheless carrying the identical-image marker. -/
def completedIdenticalState : TaskState :=
  ⟨"Completed".toList, "OK".toList, 100, identicalMarker⟩

/-- A concrete terminal task state: aborted with the identical-image
message. -/
def abortedIdenticalState : TaskState :=
  ⟨"Exception".toList, "Warning".toList, 20, identicalMarker⟩

theorem hasSub_nil_left (s : List Char) : hasSub [] s = true := by
  induction s with
  | nil => rfl
  | cons c rest ih => simp [hasSub, startsWithL]

theorem getVer_isSome_of_ok_strings :
    ∀ trials : List (Except Err_Num (Option (List Char))),
      (∀ t ∈ trials, ∀ v, t = Except.ok v → ∃ s, v = some s) →
      ∃ s, getVer trials = some s := by
  intro trials
  induction trials with
  | nil => intro _; exact ⟨[], rfl⟩
  | cons t rest ih =>
    intro h
    match t with
    | Except.ok v =>
      obtain ⟨s, hs⟩ := h (Except.ok v) (List.mem_cons_self _ _) v rfl
      exact ⟨s, by simp [getVer, hs]⟩
    | Except.error e =>
      exact ih (fun t ht v hv => h t (List.mem_cons_of_mem _ ht) v hv)

/-- C1: the claim universally sends every terminal state carrying the
identical-image marker to `success(false)`; but a task that ends
`Completed`/`OK`/100 with that marker in its message returns
`success(true)` instead (the marker is only consulted on the non-success,
non-running branch of `_wait_task`). -/
theorem claim_C1_counterexample :
    hasSub identicalMarker completedIdenticalState.message = true ∧
      completedIdenticalState.state ≠ "Running".toList ∧
      waitTask (fun _ => completedIdenticalState) (20 * 60) 10 (fun _ => none) =
        Except.ok true := by
  refine ⟨by decide, by decide, ?_⟩
  rfl

/-- C1 (amended): for every terminal task state other than the
`Completed`/`OK`/100 success state whose message contains the
identical-image marker, `_wait_task` (with no error handler installed)
returns `success(false)` rather than raising an error; and the
boot-firmware workflow's version-comparison skip fires only when the
operator explicitly requested `skip_same_version`, never from version
comparison alone. -/
theorem claim_C1 :
    (∀ (f : Nat → TaskState) (max_second check_step : Nat),
      (pollRun f 0 (max_second / check_step)).1.state ≠ "Running".toList →
      ¬((pollRun f 0 (max_second / check_step)).1.state = "Completed".toList ∧
        (pollRun f 0 (max_second / check_step)).1.status = "OK".toList ∧
        (pollRun f 0 (max_second / check_step)).1.percent = 100) →
      hasSub identicalMarker (pollRun f 0 (max_second / check_step)).1.message = true →
      waitTask f max_second check_step (fun _ => none) = Except.ok false) ∧
    (∀ cur_atf_ver fw_file_atf_ver : List Char,
      updateBiosSkip false cur_atf_ver fw_file_atf_ver = false) := by
  constructor
  · intro f max_second check_step hrun hsucc hmark
    unfold waitTask classifyTask
    rw [if_neg hsucc, if_neg hrun, if_pos hmark]
  · intro cur fw
    rfl

theorem claim_C1_witness :
    waitTask (fun _ => abortedIdenticalState) (4 * 60) 2 (fun _ => none) =
        Except.ok false ∧
      updateBiosSkip false "v1".toList "v1v2".toList = false := by
  refine ⟨claim_C1.1 (fun _ => abortedIdenticalState) (4 * 60) 2 ?_ ?_ ?_, claim_C1.2 _ _⟩
  · decide
  · decide
  · decide

/-- C2: the claim gives the controller (BMC) update a 15-minute polling
budget, but `update_bmc_or_cec` passes `max_second=20*60` for the BMC. -/
theorem claim_C2_counterexample :
    (updateBmcOrCecWaitParams true).1 ≠ 15 * 60 := by decide

/-- C2 (amended): the controller (BMC) update polls its job with a
20-minute budget (10-second step) and the companion-chip (CEC) update
with a 4-minute budget (2-second step). -/
theorem claim_C2 :
    (updateBmcOrCecWaitParams true).1 = 20 * 60 ∧
      (updateBmcOrCecWaitParams false).1 = 4 * 60 ∧
      (updateBmcOrCecWaitParams true).2 = 10 ∧
      (updateBmcOrCecWaitParams false).2 = 2 := by decide

/-- C7: when the operator forces SCP but SCP is not in the intersection
of the BMC-advertised protocols with the supported set {HTTP, SCP},
`simple_update` fails with `NOT_SUPPORT_SIMPLE_UPDATE_PROTOCOL` and sends
no push action. -/
theorem claim_C7 (advertised : List (List Char))
    (h : "SCP".toList ∉ supportedProtocols advertised) :
    simpleUpdateTrace advertised (some "SCP".toList) =
      (Except.error Err_Num.NOT_SUPPORT_SIMPLE_UPDATE_PROTOCOL, []) := by
  simp only [simpleUpdateTrace, selectUpdateProtocol]
  rw [if_neg (by simpa using h)]

theorem claim_C7_witness :
    simpleUpdateTrace ["HTTP".toList] (some "SCP".toList) =
      (Except.error Err_Num.NOT_SUPPORT_SIMPLE_UPDATE_PROTOCOL, []) :=
  claim_C7 ["HTTP".toList] (by decide)

/-- C9: when the post-update ATF read degrades to the empty string, the
new-version check of `update_bios` passes vacuously — the empty string is
a substring of every embedded version. -/
theorem claim_C9 (trials : List (Except Err_Num (Option (List Char))))
    (fw_file_atf_ver : List Char)
    (h : ∀ t ∈ trials, ∃ e, t = Except.error e) :
    getVer trials = some [] ∧
      biosVerifyNewVersion [] fw_file_atf_ver = Except.ok () := by
  constructor
  · induction trials with
    | nil => rfl
    | cons t rest ih =>
      obtain ⟨e, he⟩ := h t (List.mem_cons_self _ _)
      subst he
      exact ih (fun t ht => h t (List.mem_cons_of_mem _ ht))
  · unfold biosVerifyNewVersion
    rw [if_pos (hasSub_nil_left fw_file_atf_ver)]

theorem claim_C9_witness :
    getVer [Except.error Err_Num.BAD_RESPONSE_FORMAT,
        Except.error Err_Num.BAD_RESPONSE_FORMAT,
        Except.error Err_Num.BAD_RESPONSE_FORMAT] = some [] ∧
      biosVerifyNewVersion [] "BlueField:4.9.2(release)".toList = Except.ok () :=
  claim_C9 _ _ (by intro t ht; fin_cases ht <;> exact ⟨_, rfl⟩)

/-- C10: the claim says the `EMPTY_FW_VER` branch of `update_bios` is
unreachable because `get_ver` never returns `None`; but `get_ver_by_uri`
passes a JSON `null` `Version` field through unchanged, so one successful
read of a null version reaches the guard. -/
theorem claim_C10_counterexample :
    updateBiosVersionGuard (getVer [Except.ok none])
        (getVer [Except.ok (some "v".toList)]) =
      Except.error Err_Num.EMPTY_FW_VER := by rfl

/-- C10 (amended): the guard is reachable only through a null `Version`
field: whenever every successful read attempt carries an actual string,
`get_ver` returns a string (the empty string on exhaustion, never
`None`), and the boot-firmware workflow proceeds past the
empty-current-version guard. -/
theorem claim_C10
    (atf_trials uefi_trials : List (Except Err_Num (Option (List Char))))
    (ha : ∀ t ∈ atf_trials, ∀ v, t = Except.ok v → ∃ s, v = some s)
    (hu : ∀ t ∈ uefi_trials, ∀ v, t = Except.ok v → ∃ s, v = some s) :
    updateBiosVersionGuard (getVer atf_trials) (getVer uefi_trials) =
      Except.ok () := by
  obtain ⟨sa, hsa⟩ := getVer_isSome_of_ok_strings atf_trials ha
  obtain ⟨su, hsu⟩ := getVer_isSome_of_ok_strings uefi_trials hu
  unfold updateBiosVersionGuard
  rw [hsa, hsu, if_neg]
  simp

theorem claim_C10_witness :
    updateBiosVersionGuard (getVer [Except.error Err_Num.BAD_RESPONSE_FORMAT])
        (getVer [Except.ok (some "4.9.2".toList)]) =
      Except.ok () :=
  claim_C10 _ _ (by intro t ht v hv; fin_cases ht; simp_all)
    (by intro t ht v hv; fin_cases ht; cases hv; exact ⟨_, rfl⟩)

theorem pollRun_all_running :
    ∀ (n : Nat) (f : Nat → TaskState) (base : Nat), 1 ≤ n →
      (∀ k, k < n → (f (base + k)).state = "Running".toList) →
      pollRun f base n = (f (base + (n - 1)), n) := by
  intro n
  induction n using Nat.strong_induction_on with
  | _ n ih =>
    intro f base h1 hall
    match n, h1 with
    | 1, _ => simp [pollRun]
    | (m + 2), _ =>
      have h0 : (f base).state = "Running".toList := by
        simpa using hall 0 (by omega)
      have hrec : pollRun f (base + 1) (m + 1) = (f ((base + 1) + (m + 1 - 1)), m + 1) := by
        refine ih (m + 1) (by omega) f (base + 1) (by omega) ?_
        intro k hk
        have he : base + 1 + k = base + (k + 1) := by omega
        rw [he]
        exact hall (k + 1) (by omega)
      have he2 : base + 1 + (m + 1 - 1) = base + (m + 2 - 1) := by omega
      simp only [pollRun, if_pos h0, hrec, he2]

theorem pollRun_final_running :
    ∀ (n : Nat) (f : Nat → TaskState) (base : Nat),
      (pollRun f base n).1.state = "Running".toList →
      ∀ k, k < n → (f (base + k)).state = "Running".toList := by
  intro n
  induction n using Nat.strong_induction_on with
  | _ n ih =>
    intro f base hfin k hk
    match n, hk with
    | 1, _ =>
      have hk0 : k = 0 := by omega
      subst hk0
      simpa [pollRun] using hfin
    | (m + 2), _ =>
      by_cases h0 : (f base).state = "Running".toList
      · rcases Nat.eq_zero_or_pos k with hk0 | hkpos
        · subst hk0; simpa using h0
        · have hfin' : (pollRun f (base + 1) (m + 1)).1.state = "Running".toList := by
            simp only [pollRun, if_pos h0] at hfin
            exact hfin
          have := ih (m + 1) (by omega) f (base + 1) hfin' (k - 1) (by omega)
          have he : base + 1 + (k - 1) = base + k := by omega
          rwa [he] at this
      · refine absurd ?_ h0
        simp only [pollRun, if_neg h0] at hfin
        exact hfin

/-- C3: a task that is still `Running` at every sample times out exactly
at budget exhaustion and not before: `_wait_task` (with no error handler,
as in the controller, companion-chip and stale-job calls) raises
`TASK_TIMEOUT` precisely when all `max_second // check_step` samples are
`Running`, and in that case it really polls the full budget of
`max_second // check_step` rounds. -/
theorem claim_C3 (f : Nat → TaskState) (max_second check_step : Nat)
    (h1 : 1 ≤ max_second / check_step) :
    (waitTask f max_second check_step (fun _ => none) =
        Except.error Err_Num.TASK_TIMEOUT ↔
      ∀ i, i < max_second / check_step → (f i).state = "Running".toList) ∧
    ((∀ i, i < max_second / check_step → (f i).state = "Running".toList) →
      waitTaskPolls f max_second check_step = max_second / check_step) := by
  constructor
  · constructor
    · intro hw
      have hfin : (pollRun f 0 (max_second / check_step)).1.state = "Running".toList := by
        by_contra hne
        unfold waitTask classifyTask at hw
        by_cases hC : (pollRun f 0 (max_second / check_step)).1.state = "Completed".toList ∧
            (pollRun f 0 (max_second / check_step)).1.status = "OK".toList ∧
            (pollRun f 0 (max_second / check_step)).1.percent = 100
        · rw [if_pos hC] at hw
          exact Except.noConfusion hw
        · rw [if_neg hC, if_neg hne] at hw
          by_cases hid : hasSub identicalMarker
              (pollRun f 0 (max_second / check_step)).1.message = true
          · rw [if_pos hid] at hw
            exact Except.noConfusion hw
          · rw [if_neg hid] at hw
            by_cases hbg : hasSub bgCopyMarker
                (pollRun f 0 (max_second / check_step)).1.message = true
            · rw [if_pos hbg] at hw
              simp at hw
            · rw [if_neg hbg] at hw
              simp at hw
      intro i hi
      simpa using pollRun_final_running (max_second / check_step) f 0 hfin i hi
    · intro hall
      have hrun := pollRun_all_running (max_second / check_step) f 0 h1
        (fun k hk => by simpa using hall k hk)
      have hlast : (f (0 + (max_second / check_step - 1))).state = "Running".toList := by
        simpa using hall (max_second / check_step - 1) (by omega)
      unfold waitTask classifyTask
      rw [hrun]
      rw [if_neg, if_pos hlast]
      intro hC
      have : ("Running".toList : List Char) = "Completed".toList := hlast ▸ hC.1
      exact absurd this (by decide)
  · intro hall
    unfold waitTaskPolls
    rw [pollRun_all_running (max_second / check_step) f 0 h1
      (fun k hk => by simpa using hall k hk)]

theorem claim_C3_witness :
    (1 ≤ 4 * 60 / 2) ∧
      waitTask (fun _ => ⟨"Running".toList, "OK".toList, 50, []⟩) (4 * 60) 2
          (fun _ => none) =
        Except.error Err_Num.TASK_TIMEOUT ∧
      waitTaskPolls (fun _ => ⟨"Running".toList, "OK".toList, 50, []⟩) (4 * 60) 2 =
        4 * 60 / 2 := by
  have h := claim_C3 (fun _ => ⟨"Running".toList, "OK".toList, 50, []⟩) (4 * 60) 2
    (by decide)
  exact ⟨by decide, h.1.mpr (fun i _ => rfl), h.2 (fun i _ => rfl)⟩

/-- Spec-side predicate for C5: the version parses strictly below the
threshold `BF-24.10-33`, whose tuple is `(24, 10, 33)`; a version equal
to the threshold is not below it. -/
def strictlyBelowThreshold (v : PyValue) : Bool :=
  tupLt (parseBmcVersion v) (24, 10, 33)

/-- C5: the event-log clear of `_check_and_clear_sel_if_needed` fires iff
exactly one of the old and new controller versions parses strictly below
the fixed threshold `BF-24.10-33` in the version-tuple order. -/
theorem claim_C5 (old_version new_version : PyValue) :
    shouldClearSel old_version new_version = true ↔
      Xor' (strictlyBelowThreshold old_version = true)
        (strictlyBelowThreshold new_version = true) := by
  have hT : parseBmcVersion thresholdVersion = (24, 10, 33) := by decide
  unfold shouldClearSel compareBmcVersions strictlyBelowThreshold
  rw [hT]
  rcases ho : tupLt (parseBmcVersion old_version) (24, 10, 33) with _ | _ <;>
    rcases ho' : tupLt (24, 10, 33) (parseBmcVersion old_version) with _ | _ <;>
      rcases hn : tupLt (parseBmcVersion new_version) (24, 10, 33) with _ | _ <;>
        rcases hn' : tupLt (24, 10, 33) (parseBmcVersion new_version) with _ | _ <;>
          simp [Xor', ho, ho', hn, hn']

/-- Spec-side normalization for C6: drop the vendor marker `BF-`, then
normalize `-` to `.` (as `_parse_bmc_version` does). -/
def normalizeVersion (s : List Char) : List Char :=
  pyReplace ['-'] ['.'] (pyReplace "BF-".toList [] s)

/-- Spec-side components for C6: the normalized string split on `.`. -/
def versionParts (s : List Char) : List (List Char) :=
  splitAllChar '.' (normalizeVersion s)

/-- Spec-side well-formedness for C6, following the spec's words: the
normalized string yields at least three leading components and each of
the first three converts as an integer. -/
def wellFormedVersion (s : List Char) : Bool :=
  decide (3 ≤ (versionParts s).length) &&
    ((pyInt ((versionParts s).getD 0 [])).isSome &&
      ((pyInt ((versionParts s).getD 1 [])).isSome &&
        (pyInt ((versionParts s).getD 2 [])).isSome))

/-- Spec-side parse for C6 (second definition, following the spec's
words, for comparison with the translated `parseBmcVersion`): malformed
input — `None`, a non-string, or a string that is not well-formed — maps
to the sentinel `(0, 0, 0)`; a well-formed string maps to exactly its
first three integer components. -/
def parseBmcVersionSpec : PyValue → Int × Int × Int
  | PyValue.pstr s =>
    if wellFormedVersion s then
      ((pyInt ((versionParts s).getD 0 [])).getD 0,
        (pyInt ((versionParts s).getD 1 [])).getD 0,
        (pyInt ((versionParts s).getD 2 [])).getD 0)
    else (0, 0, 0)
  | _ => (0, 0, 0)

/-- The try/except body of `_parse_bmc_version` agrees with the spec-side
well-formedness formulation, for any list of parts. -/
theorem parseVersionCore_eq (parts : List (List Char)) :
    (if 3 ≤ parts.length then
      match pyInt (parts.getD 0 []), pyInt (parts.getD 1 []), pyInt (parts.getD 2 []) with
      | some a, some b, some c => ((a, b, c) : Int × Int × Int)
      | _, _, _ => (0, 0, 0)
    else (0, 0, 0)) =
      (if (decide (3 ≤ parts.length) &&
          ((pyInt (parts.getD 0 [])).isSome &&
            ((pyInt (parts.getD 1 [])).isSome &&
              (pyInt (parts.getD 2 [])).isSome))) = true then
        ((pyInt (parts.getD 0 [])).getD 0,
          (pyInt (parts.getD 1 [])).getD 0,
          (pyInt (parts.getD 2 [])).getD 0)
      else (0, 0, 0)) := by
  by_cases h3 : 3 ≤ parts.length
  · rcases h0 : pyInt (parts.getD 0 []) with _ | a <;>
      rcases h1 : pyInt (parts.getD 1 []) with _ | b <;>
        rcases h2 : pyInt (parts.getD 2 []) with _ | c <;>
          simp [h3, h0, h1, h2]
  · simp [h3]

/-- C6: `_parse_bmc_version` returns the sentinel `(0, 0, 0)` on every
malformed input (`None`, non-strings, strings without three leading
integer components after normalization) and exactly the first three
integer components on every well-formed string. -/
theorem claim_C6 : ∀ v : PyValue, parseBmcVersion v = parseBmcVersionSpec v := by
  intro v
  match v with
  | PyValue.pnone => rfl
  | PyValue.pother => rfl
  | PyValue.pstr s =>
    by_cases hs : s = []
    · subst hs; decide
    · have hcore := parseVersionCore_eq (versionParts s)
      simp only [parseBmcVersion, if_neg hs, parseBmcVersionSpec, wellFormedVersion]
      exact hcore

theorem splitOnceChar_append (c : Char) (a b : List Char) (h : c ∉ a) :
    splitOnceChar c (a ++ c :: b) = some (a, b) := by
  induction a with
  | nil => simp [splitOnceChar]
  | cons x xs ih =>
    have hcx : ¬ c = x := fun hh => h (hh ▸ List.mem_cons_self x xs)
    have hx : (x == c) = false := beq_eq_false_iff_ne.mpr (fun hh => hcx hh.symm)
    simp [splitOnceChar, hx, ih (fun hm => h (List.mem_cons_of_mem _ hm))]

theorem splitAllChar_not_mem (c : Char) (s : List Char) (h : c ∉ s) :
    splitAllChar c s = [s] := by
  induction s with
  | nil => rfl
  | cons x xs ih =>
    have hcx : ¬ c = x := fun hh => h (hh ▸ List.mem_cons_self x xs)
    have hx : (x == c) = false := beq_eq_false_iff_ne.mpr (fun hh => hcx hh.symm)
    simp [splitAllChar, hx, ih (fun hm => h (List.mem_cons_of_mem _ hm))]

theorem splitAllChar_append (c : Char) (x y : List Char) (h : c ∉ x) :
    splitAllChar c (x ++ c :: y) = x :: splitAllChar c y := by
  induction x with
  | nil => simp [splitAllChar]
  | cons a as ih =>
    have hca : ¬ c = a := fun hh => h (hh ▸ List.mem_cons_self a as)
    have ha : (a == c) = false := beq_eq_false_iff_ne.mpr (fun hh => hca hh.symm)
    simp [splitAllChar, ha, ih (fun hm => h (List.mem_cons_of_mem _ hm))]

theorem parseFruItem_error_kind (it : List Char) (e : Err_Num)
    (h : parseFruItem it = Except.error e) :
    e = Err_Num.INVALID_INPUT_PARAMETER := by
  unfold parseFruItem at h
  split at h
  · cases h; rfl
  · split at h
    · split at h
      · cases h; rfl
      · split at h
        · cases h; rfl
        · cases h
    · cases h; rfl

theorem parseFruItem_long (it v : List Char) (hv : fruItemValue it = some v)
    (hl : 63 < v.length) :
    parseFruItem it = Except.error Err_Num.INVALID_INPUT_PARAMETER := by
  unfold fruItemValue at hv
  rcases hsp : splitOnceChar '=' it with _ | ⟨sk, v'⟩
  · rw [hsp] at hv; cases hv
  · rw [hsp] at hv
    simp at hv
    subst hv
    simp only [parseFruItem, hsp]
    split
    · rw [if_pos hl]
    · rfl

theorem parseFruItems_error_of_mem (items : List (List Char)) (it : List Char)
    (hm : it ∈ items)
    (he : parseFruItem it = Except.error Err_Num.INVALID_INPUT_PARAMETER) :
    parseFruItems items = Except.error Err_Num.INVALID_INPUT_PARAMETER := by
  induction items with
  | nil => cases hm
  | cons x rest ih =>
    rcases List.mem_cons.mp hm with h1 | h2
    · subst h1
      simp only [parseFruItems, he]
    · cases hx : parseFruItem x with
      | error e =>
        simp only [parseFruItems, hx, parseFruItem_error_kind x e hx]
      | ok kv =>
        simp only [parseFruItems, hx, ih h2]

/-- C8: an inventory-metadata (FRU) update whose input carries a field
value longer than 63 characters fails with `INVALID_INPUT_PARAMETER` and
no write request is sent; and the length check passes every value of at
most 63 characters (a well-formed non-failing item with such a value is
accepted). -/
theorem claim_C8 :
    (∀ (items : List (List Char)) (it v : List Char),
      it ∈ items → fruItemValue it = some v → 63 < v.length →
      updateOemFruTrace items = (Except.error Err_Num.INVALID_INPUT_PARAMETER, [])) ∧
    (∀ sec key v : List Char, ':' ∉ sec → ':' ∉ key → '=' ∉ sec → '=' ∉ key →
      v.length ≤ 63 →
      (sec ++ ':' :: key = "Product:ManufactureDate".toList →
        v = [] ∨ validateFruDateFormat v = true) →
      parseFruItem (sec ++ ':' :: key ++ '=' :: v) = Except.ok (sec ++ key, v)) := by
  constructor
  · intro items it v hm hv hl
    have hp := parseFruItem_long it v hv hl
    have hs := parseFruItems_error_of_mem items it hm hp
    unfold updateOemFruTrace
    rw [hs]
  · intro sec key v h1 h2 h3 h4 hlen hdate
    have hassoc : sec ++ ':' :: key ++ '=' :: v = (sec ++ ':' :: key) ++ '=' :: v := by
      simp
    have hse : splitOnceChar '=' (sec ++ ':' :: key ++ '=' :: v) =
        some (sec ++ ':' :: key, v) := by
      rw [hassoc]
      apply splitOnceChar_append
      intro hm
      rcases List.mem_append.mp hm with hmm | hmm
      · exact h3 hmm
      · rcases List.mem_cons.mp hmm with hc | hc
        · exact absurd hc (by decide)
        · exact h4 hc
    have hsa : splitAllChar ':' (sec ++ ':' :: key) = [sec, key] := by
      rw [splitAllChar_append ':' sec key h1, splitAllChar_not_mem ':' key h2]
    simp only [parseFruItem, hse, hsa]
    rw [if_neg (by omega), if_neg]
    intro hcon
    rcases hdate hcon.1 with hd | hd
    · exact hcon.2.1 hd
    · rw [hd] at hcon
      exact Bool.noConfusion hcon.2.2

theorem claim_C8_witness :
    updateOemFruTrace [("Product:SerialNumber=".toList ++ List.replicate 64 'a')] =
        (Except.error Err_Num.INVALID_INPUT_PARAMETER, []) ∧
      parseFruItem ("Board".toList ++ ':' :: "PartNumber".toList ++ '=' :: "MBF3168A".toList) =
        Except.ok ("Board".toList ++ "PartNumber".toList, "MBF3168A".toList) := by
  constructor
  · exact claim_C8.1 _ ("Product:SerialNumber=".toList ++ List.replicate 64 'a')
      (List.replicate 64 'a') (List.mem_singleton.mpr rfl) (by decide) (by decide)
  · exact claim_C8.2 "Board".toList "PartNumber".toList "MBF3168A".toList
      (by decide) (by decide) (by decide) (by decide) (by decide)
      (fun hpmd => absurd hpmd (by decide))

theorem bool_and_split {a b : Bool} (h : (a && b) = true) : a = true ∧ b = true := by
  cases a <;> cases b <;> simp_all

theorem hasSub_nil_right (p : List Char) (hp : p ≠ []) : hasSub p [] = false := by
  rcases p with _ | ⟨ph, pt⟩
  · exact absurd rfl hp
  · rfl

theorem hasSub_append_left_skip (q : List Char) (hq : q ≠ []) :
    ∀ x y : List Char, (∀ a ∈ q, a ∉ x) → hasSub q (x ++ y) = hasSub q y := by
  rcases q with _ | ⟨qh, qt⟩
  · exact absurd rfl hq
  · intro x
    induction x with
    | nil => intro y _; rfl
    | cons c xs ih =>
      intro y hdisj
      have hqh : qh ∉ (c :: xs) := hdisj qh (List.mem_cons_self _ _)
      have hne : (qh == c) = false :=
        beq_eq_false_iff_ne.mpr (fun hh => hqh (hh ▸ List.mem_cons_self c xs))
      show (startsWithL (qh :: qt) (c :: (xs ++ y)) || hasSub (qh :: qt) (xs ++ y)) =
        hasSub (qh :: qt) y
      rw [show startsWithL (qh :: qt) (c :: (xs ++ y)) =
        ((qh == c) && startsWithL qt (xs ++ y)) from rfl, hne]
      simp only [Bool.false_and, Bool.false_or]
      exact ih y (fun a ha hmem => hdisj a ha (List.mem_cons_of_mem _ hmem))

theorem hasSub_of_drop (q s : List Char) (n : Nat)
    (h : hasSub q (List.drop n s) = true) : hasSub q s = true := by
  induction s generalizing n with
  | nil => simpa using h
  | cons c rest ih =>
    match n with
    | 0 => simpa using h
    | m + 1 =>
      have hrest : hasSub q rest = true := ih m (by simpa using h)
      show (startsWithL q (c :: rest) || hasSub q rest) = true
      rw [hrest]
      simp

theorem startsWithL_of_replaceFuel (p r : List Char) (hr : r ≠ []) :
    ∀ (fuel : Nat) (s q : List Char), q ≠ [] → (∀ a ∈ q, a ∉ r) →
      startsWithL q (replaceFuel p r fuel s) = true → startsWithL q s = true := by
  intro fuel
  induction fuel with
  | zero => intro s q _ _ h; simpa [replaceFuel] using h
  | succ fuel ih =>
    intro s q hq hdisj h
    match s with
    | [] =>
      rcases q with _ | ⟨qh, qt⟩
      · exact absurd rfl hq
      · exact absurd h (by simp [replaceFuel, startsWithL])
    | c :: rest =>
      rcases q with _ | ⟨qh, qt⟩
      · exact absurd rfl hq
      by_cases hm : startsWithL p (c :: rest) = true
      · rcases r with _ | ⟨rh, rt⟩
        · exact absurd rfl hr
        have hout : replaceFuel p (rh :: rt) (fuel + 1) (c :: rest) =
            rh :: (rt ++ replaceFuel p (rh :: rt) fuel ((c :: rest).drop p.length)) := by
          simp [replaceFuel, hm]
        rw [hout] at h
        have hqh : (qh == rh) = true := (bool_and_split h).1
        have hqr : qh ∉ (rh :: rt) := hdisj qh (List.mem_cons_self _ _)
        have heq : qh = rh := by simpa using hqh
        exact absurd (heq ▸ List.mem_cons_self rh rt) hqr
      · have hout : replaceFuel p r (fuel + 1) (c :: rest) =
            c :: replaceFuel p r fuel rest := by
          simp [replaceFuel, hm]
        rw [hout] at h
        have h1 : (qh == c) = true := (bool_and_split h).1
        have h2 : startsWithL qt (replaceFuel p r fuel rest) = true :=
          (bool_and_split h).2
        rcases qt with _ | ⟨q1, qs⟩
        · show ((qh == c) && startsWithL [] rest) = true
          simp [startsWithL, h1]
        · have hrec := ih rest (q1 :: qs) (by simp)
            (fun a ha => hdisj a (List.mem_cons_of_mem _ ha)) h2
          show ((qh == c) && startsWithL (q1 :: qs) rest) = true
          simp [h1, hrec]

theorem hasSub_replaceFuel_self (p r : List Char) (hp : p ≠ []) (hr : r ≠ [])
    (hdisj : ∀ a ∈ p, a ∉ r) :
    ∀ (fuel : Nat) (s : List Char), s.length ≤ fuel →
      hasSub p (replaceFuel p r fuel s) = false := by
  intro fuel
  induction fuel with
  | zero =>
    intro s hs
    have hnil : s = [] := List.length_eq_zero.mp (Nat.le_zero.mp hs)
    subst hnil
    exact hasSub_nil_right p hp
  | succ fuel ih =>
    intro s hs
    match s with
    | [] => exact hasSub_nil_right p hp
    | c :: rest =>
      by_cases hm : startsWithL p (c :: rest) = true
      · have hout : replaceFuel p r (fuel + 1) (c :: rest) =
            r ++ replaceFuel p r fuel ((c :: rest).drop p.length) := by
          simp [replaceFuel, hm]
        rw [hout, hasSub_append_left_skip p hp r _ hdisj]
        apply ih
        have hp1 : 1 ≤ p.length := List.length_pos.mpr hp
        have hlen : ((c :: rest).drop p.length).length = (c :: rest).length - p.length :=
          List.length_drop _ _
        have hs' : (c :: rest).length ≤ fuel + 1 := hs
        rw [hlen]
        simp only [List.length_cons] at hs' ⊢
        omega
      · have hout : replaceFuel p r (fuel + 1) (c :: rest) =
            c :: replaceFuel p r fuel rest := by
          simp [replaceFuel, hm]
        rw [hout]
        have h2 : hasSub p (replaceFuel p r fuel rest) = false := by
          apply ih
          have : (c :: rest).length ≤ fuel + 1 := hs
          simp only [List.length_cons] at this
          omega
        show (startsWithL p (c :: replaceFuel p r fuel rest) ||
          hasSub p (replaceFuel p r fuel rest)) = false
        rcases hb : startsWithL p (c :: replaceFuel p r fuel rest) with _ | _
        · rw [h2]; rfl
        · exfalso
          rcases p with _ | ⟨ph, pt⟩
          · exact hp rfl
          have hb1 : (ph == c) = true := (bool_and_split hb).1
          have hb2 : startsWithL pt (replaceFuel (ph :: pt) r fuel rest) = true :=
            (bool_and_split hb).2
          rcases pt with _ | ⟨p1, ps⟩
          · exact hm (by simp [startsWithL, hb1])
          · have hrec := startsWithL_of_replaceFuel (ph :: p1 :: ps) r hr fuel rest
              (p1 :: ps) (by simp) (fun a ha => hdisj a (List.mem_cons_of_mem _ ha)) hb2
            exact hm (by simp [startsWithL, hb1, hrec])

theorem hasSub_replaceFuel_preserve (p r q : List Char) (hr : r ≠ [])
    (hq : q ≠ []) (hdisj : ∀ a ∈ q, a ∉ r) :
    ∀ (fuel : Nat) (s : List Char), hasSub q s = false →
      hasSub q (replaceFuel p r fuel s) = false := by
  intro fuel
  induction fuel with
  | zero => intro s h; exact h
  | succ fuel ih =>
    intro s h
    match s with
    | [] => exact h
    | c :: rest =>
      have hor : (startsWithL q (c :: rest) || hasSub q rest) = false := h
      have hsw : startsWithL q (c :: rest) = false := by
        rcases hb : startsWithL q (c :: rest) with _ | _
        · rfl
        · rw [hb] at hor; simp at hor
      have hrest : hasSub q rest = false := by
        rcases hb : hasSub q rest with _ | _
        · rfl
        · rw [hb] at hor; simp at hor
      by_cases hm : startsWithL p (c :: rest) = true
      · have hout : replaceFuel p r (fuel + 1) (c :: rest) =
            r ++ replaceFuel p r fuel ((c :: rest).drop p.length) := by
          simp [replaceFuel, hm]
        rw [hout, hasSub_append_left_skip q hq r _ hdisj]
        apply ih
        rcases hd : hasSub q ((c :: rest).drop p.length) with _ | _
        · rfl
        · exact absurd (hasSub_of_drop q (c :: rest) p.length hd) (by simp [h])
      · have hout : replaceFuel p r (fuel + 1) (c :: rest) =
            c :: replaceFuel p r fuel rest := by
          simp [replaceFuel, hm]
        rw [hout]
        have h2 := ih rest hrest
        show (startsWithL q (c :: replaceFuel p r fuel rest) ||
          hasSub q (replaceFuel p r fuel rest)) = false
        rcases hb : startsWithL q (c :: replaceFuel p r fuel rest) with _ | _
        · rw [h2]; rfl
        · exfalso
          rcases q with _ | ⟨qh, qt⟩
          · exact hq rfl
          have hb1 : (qh == c) = true := (bool_and_split hb).1
          have hb2 : startsWithL qt (replaceFuel p r fuel rest) = true :=
            (bool_and_split hb).2
          rcases qt with _ | ⟨q1, qs⟩
          · exact absurd (show startsWithL [qh] (c :: rest) = true by
              simp [startsWithL, hb1]) (by simp [hsw])
          · have hrec := startsWithL_of_replaceFuel p r hr fuel rest (q1 :: qs)
              (by simp) (fun a ha => hdisj a (List.mem_cons_of_mem _ ha)) hb2
            exact absurd (show startsWithL (qh :: q1 :: qs) (c :: rest) = true by
              simp [startsWithL, hb1, hrec]) (by simp [hsw])

theorem hasSub_pyReplace_self (p r s : List Char) (hp : p ≠ []) (hr : r ≠ [])
    (hdisj : ∀ a ∈ p, a ∉ r) : hasSub p (pyReplace p r s) = false := by
  unfold pyReplace
  rw [if_neg hp]
  exact hasSub_replaceFuel_self p r hp hr hdisj s.length s (Nat.le_refl _)

theorem hasSub_pyReplace_preserve (p r q s : List Char) (hp : p ≠ []) (hr : r ≠ [])
    (hq : q ≠ []) (hdisj : ∀ a ∈ q, a ∉ r) (h : hasSub q s = false) :
    hasSub q (pyReplace p r s) = false := by
  unfold pyReplace
  rw [if_neg hp]
  exact hasSub_replaceFuel_preserve p r q hr hq hdisj s.length s h

/-- C4: as stated — "for all four non-empty credential strings the logged
text contains no literal occurrence of any of them" — the claim fails: a
replacement placeholder can itself contain a credential.  With password
`sswo` (a substring of the placeholder `<password>`), non-empty username
and SSH credentials, and the log message `sswo`, the redacted text still
contains the password literally. -/
theorem claim_C4_counterexample :
    ("sswo".toList ≠ [] ∧ "1".toList ≠ [] ∧ "2".toList ≠ [] ∧ "3".toList ≠ []) ∧
      hasSub "sswo".toList
        (logText "sswo".toList "1".toList (some "2".toList) (some "3".toList)
          "sswo".toList) = true := by
  decide

/-- C4 (amended): each redaction pass replaces every occurrence of its
credential present at that point, but a credential overlapping the
placeholder text or another pass can survive; when every one of the four
non-empty credentials shares no character with the four placeholder
strings, the redacted text contains no literal occurrence of any of the
four credentials — for arbitrary composed log text, hence for every log
message and every response logged. -/
theorem claim_C4 (pw un sp su data : List Char)
    (hpw : pw ≠ []) (hun : un ≠ []) (hsp : sp ≠ []) (hsu : su ≠ [])
    (dpw : ∀ a ∈ pw, a ∉ phChars) (dun : ∀ a ∈ un, a ∉ phChars)
    (dsp : ∀ a ∈ sp, a ∉ phChars) (dsu : ∀ a ∈ su, a ∉ phChars) :
    hasSub pw (logRedact pw un (some sp) (some su) data) = false ∧
      hasSub un (logRedact pw un (some sp) (some su) data) = false ∧
      hasSub sp (logRedact pw un (some sp) (some su) data) = false ∧
      hasSub su (logRedact pw un (some sp) (some su) data) = false := by
  have hmemP : ∀ a, a ∈ phPassword → a ∈ phChars := by
    intro a ha; simp [phChars, List.mem_append]; tauto
  have hmemU : ∀ a, a ∈ phUsername → a ∈ phChars := by
    intro a ha; simp [phChars, List.mem_append]; tauto
  have hmemSP : ∀ a, a ∈ phSshPassword → a ∈ phChars := by
    intro a ha; simp [phChars, List.mem_append]; tauto
  have hmemSU : ∀ a, a ∈ phSshUsername → a ∈ phChars := by
    intro a ha; simp [phChars, List.mem_append]; tauto
  have hP : (phPassword : List Char) ≠ [] := by decide
  have hU : (phUsername : List Char) ≠ [] := by decide
  have hSP : (phSshPassword : List Char) ≠ [] := by decide
  have hSU : (phSshUsername : List Char) ≠ [] := by decide
  have hout : logRedact pw un (some sp) (some su) data =
      pyReplace su phSshUsername (pyReplace sp phSshPassword
        (pyReplace un phUsername (pyReplace pw phPassword data))) := by
    simp only [logRedact]
    rw [if_neg hsp, if_neg hsu]
  rw [hout]
  refine ⟨?_, ?_, ?_, ?_⟩
  · refine hasSub_pyReplace_preserve su phSshUsername pw _ hsu hSU hpw
      (fun a ha hm => dpw a ha (hmemSU a hm)) ?_
    refine hasSub_pyReplace_preserve sp phSshPassword pw _ hsp hSP hpw
      (fun a ha hm => dpw a ha (hmemSP a hm)) ?_
    refine hasSub_pyReplace_preserve un phUsername pw _ hun hU hpw
      (fun a ha hm => dpw a ha (hmemU a hm)) ?_
    exact hasSub_pyReplace_self pw phPassword data hpw hP
      (fun a ha hm => dpw a ha (hmemP a hm))
  · refine hasSub_pyReplace_preserve su phSshUsername un _ hsu hSU hun
      (fun a ha hm => dun a ha (hmemSU a hm)) ?_
    refine hasSub_pyReplace_preserve sp phSshPassword un _ hsp hSP hun
      (fun a ha hm => dun a ha (hmemSP a hm)) ?_
    exact hasSub_pyReplace_self un phUsername _ hun hU
      (fun a ha hm => dun a ha (hmemU a hm))
  · refine hasSub_pyReplace_preserve su phSshUsername sp _ hsu hSU hsp
      (fun a ha hm => dsp a ha (hmemSU a hm)) ?_
    exact hasSub_pyReplace_self sp phSshPassword _ hsp hSP
      (fun a ha hm => dsp a ha (hmemSP a hm))
  · exact hasSub_pyReplace_self su phSshUsername _ hsu hSU
      (fun a ha hm => dsu a ha (hmemSU a hm))

theorem claim_C4_witness :
    hasSub "11".toList (logRedact "11".toList "22".toList (some "33".toList)
        (some "44".toList) "login 11 pw 22 ssh 33 44 end 11".toList) = false ∧
      hasSub "22".toList (logRedact "11".toList "22".toList (some "33".toList)
        (some "44".toList) "login 11 pw 22 ssh 33 44 end 11".toList) = false ∧
      hasSub "33".toList (logRedact "11".toList "22".toList (some "33".toList)
        (some "44".toList) "login 11 pw 22 ssh 33 44 end 11".toList) = false ∧
      hasSub "44".toList (logRedact "11".toList "22".toList (some "33".toList)
        (some "44".toList) "login 11 pw 22 ssh 33 44 end 11".toList) = false :=
  claim_C4 "11".toList "22".toList "33".toList "44".toList
    "login 11 pw 22 ssh 33 44 end 11".toList
    (by decide) (by decide) (by decide) (by decide)
    (by decide) (by decide) (by decide) (by decide)
